import Mathlib

/-!
Verification of the text2sql orchestration engine.

Shallow embedding of the core components of the repository:
session-memory window management (`graph/state.py`), the context
compressor and workflow nodes (`graph/nodes.py`), reciprocal rank
fusion (`retrieval/hybrid_retriever.py`) and the query sanitizer
(`agents/sql_generator.py`).  Dictionaries are modelled as ordered
association lists (Python dicts preserve insertion order), floats as
rationals, and the LLM / database collaborators as function parameters.
-/

namespace T2S

/-! ## Session memory window (`graph/state.py`, `add_messages`) -/

/-- A LangChain message: `type` mirrors `BaseMessage.type`
(`"human"` / `"ai"`), `content` the text. -/
structure Msg where
  type : String
  content : String
deriving DecidableEq, Repr

/-- `add_messages(left, right)`: concatenate, and once the result
exceeds 20 messages keep the most recent 10 and then drop leading
messages until the first one is a human message. -/
def add_messages (left right : List Msg) : List Msg :=
  let result := left ++ right
  if 20 < result.length then
    (result.drop (result.length - 10)).dropWhile (fun m => m.type ≠ "human")
  else result

/-- The batch handed to `_archive_messages_async`: `result[:-KEEP_COUNT]`
when the trim threshold is exceeded, nothing otherwise. -/
def trim_archive_batch (left right : List Msg) : List Msg :=
  let result := left ++ right
  if 20 < result.length then result.take (result.length - 10) else []

/-- `add_messages` together with the archival call; the archiver's
outcome (`Except` models success count or failure) is produced and
discarded, mirroring the fire-and-forget daemon thread whose
exceptions are caught and logged. -/
def add_messages_run (archiver : List Msg → Except String Nat)
    (left right : List Msg) : List Msg × Option (Except String Nat) :=
  let result := left ++ right
  if 20 < result.length then
    let toArchive := result.take (result.length - 10)
    let archOut := archiver toArchive
    ((result.drop (result.length - 10)).dropWhile (fun m => m.type ≠ "human"),
      some archOut)
  else (result, none)

/-! ## Plan validation (`graph/nodes.py`, `plan_validator_node`) -/

/-- One step of a query plan (`QueryStep` in `intent/recognizer.py`,
seen by the validator as the dict `{step, database, purpose, depends_on}`). -/
structure QStep where
  step : Int
  database : String
  purpose : String
  depends_on : Option Int
deriving DecidableEq, Repr

/-- Structural validation errors, abstracting the Chinese message
strings built by `plan_validator_node` (one constructor per `errors.append`
site, carrying the data interpolated into the message). -/
inductive PlanError where
  | emptySteps : PlanError
  | nonContiguous : List Int → PlanError
  | invalidDatabase : Int → String → PlanError
  | forwardDependency : Int → Int → PlanError
deriving DecidableEq, Repr

/-- The contiguous 0-based index sequence `list(range(n))`. -/
def seqFrom0 (n : Nat) : List Int := (List.range n).map (fun i => (i : Int))

/-- The contiguous 1-based index sequence `list(range(1, n+1))`. -/
def seqFrom1 (n : Nat) : List Int := (List.range n).map (fun i => (i : Int) + 1)

/-- Check 2 of `plan_validator_node`: index contiguity, gated by
`len(steps) > 1`. -/
def idxErrors (steps : List QStep) : List PlanError :=
  if 1 < steps.length then
    if steps.map (fun s => s.step) ≠ seqFrom0 steps.length ∧
        steps.map (fun s => s.step) ≠ seqFrom1 steps.length then
      [PlanError.nonContiguous (steps.map (fun s => s.step))]
    else []
  else []

/-- Check 3 of `plan_validator_node`: database enum membership. -/
def dbErrors (steps : List QStep) : List PlanError :=
  steps.filterMap (fun s =>
    if s.database ≠ "mysql" ∧ s.database ≠ "influxdb" then
      some (PlanError.invalidDatabase s.step s.database)
    else none)

/-- Check 4 of `plan_validator_node`: `depends_on` must reference a
strictly smaller index, gated by `len(steps) > 1`. -/
def depErrors (steps : List QStep) : List PlanError :=
  if 1 < steps.length then
    steps.filterMap (fun s =>
      match s.depends_on with
      | some d => if s.step ≤ d then some (PlanError.forwardDependency s.step d) else none
      | none => none)
  else []

/-- `plan_validator_node`'s error accumulation: empty-step check (which
returns immediately), then checks 2–4 in order. -/
def plan_validator (steps : List QStep) : List PlanError :=
  if steps.isEmpty then [PlanError.emptySteps]
  else idxErrors steps ++ dbErrors steps ++ depErrors steps

/-! ## Context compressor (`graph/nodes.py`, `format_context`)

Rows (`dict[str, Any]`) are modelled as ordered association lists with
string values; `str()` of a value is modelled as quote-wrapping, valid
for values without characters that Python's `repr` escapes. -/

/-- A result row: ordered key/value pairs. -/
abbrev Row : Type := List (String × String)

/-- The single-quote character, as used by Python `repr` of strings. -/
def sq : String := String.singleton (Char.ofNat 39)

/-- Python `repr` of a string value (no escaping needed). -/
def pyStrRepr (s : String) : String := sq ++ s ++ sq

/-- Intersperse-and-concatenate, as Python `sep.join` / list display glue. -/
def joinSep (sep : String) : List String → String
  | [] => ""
  | [x] => x
  | x :: y :: xs => x ++ sep ++ joinSep sep (y :: xs)

/-- Python `str` of a dict of strings, e.g. `{'id': 'x', 'name': 'y'}`. -/
def pyDictRepr (l : List (String × String)) : String :=
  "\x7b" ++ joinSep (", ") (l.map (fun kv => pyStrRepr kv.1 ++ ": " ++ pyStrRepr kv.2)) ++ "\x7d"

/-- Python `str` of a list of strings, e.g. `['a', 'b']`. -/
def pyListRepr (l : List String) : String :=
  "[" ++ joinSep (", ") (l.map pyStrRepr) ++ "]"

/-- The identifier-like allow-list `key_fields` of `format_context`. -/
def key_fields : List String := ["id", "serial", "client_id", "name", "device_id", "node_id"]

/-- `{k: v for k, v in row.items() if k in key_fields}`. -/
def rowKeyValues (row : Row) : List (String × String) :=
  row.filter (fun kv => kv.1 ∈ key_fields)

/-- One row's summary line: its allow-listed fields, or its first three
key/value pairs when none are present. -/
def summaryOf (row : Row) : String :=
  let kvs := rowKeyValues row
  if kvs.isEmpty then pyDictRepr (row.take 3) else pyDictRepr kvs

/-- `row.get(k)` restricted to truthiness: `None` and `""` are falsy. -/
def truthyGet (row : Row) (k : String) : Option String :=
  match row.lookup k with
  | some v => if v = "" then none else some v
  | none => none

/-- `r.get("id") or r.get("serial")`, kept only when truthy. -/
def idOrSerial (row : Row) : Option String :=
  match truthyGet row "id" with
  | some v => some v
  | none => truthyGet row "serial"

/-- `format_context(results, max_rows=20, max_tokens=2000)`: sentinel for
no rows; otherwise at most `max_rows` summary lines under a row-count
header, collapsed to a row count plus at most 10 id/serial values when
the length-quarter token estimate exceeds `max_tokens`. -/
def format_context (results : List Row) (max_rows : Nat := 20) (max_tokens : Nat := 2000) : String :=
  if results.isEmpty then "上一步查询无结果"
  else
    let total_count := results.length
    let truncated := max_rows < total_count
    let results1 := if truncated then results.take max_rows else results
    let summaries := results1.map summaryOf
    let context :=
      "上一步查询返回 " ++ toString total_count ++ " 条记录" ++
      (if truncated then "（仅显示前 " ++ toString max_rows ++ " 条）" else "") ++
      ":\n" ++ joinSep ("\n") summaries
    let estimated_tokens := context.length / 4
    if max_tokens < estimated_tokens then
      let ids := (results1.take 10).filterMap idOrSerial
      "上一步查询返回 " ++ toString total_count ++ " 条记录，关键ID: " ++ pyListRepr ids
    else context

/-! ## Hybrid retrieval fusion (`retrieval/hybrid_retriever.py`, `rrf_fusion`)

The `scores` defaultdict and `doc_data` dict are modelled as ordered
association lists (Python dicts iterate in insertion order); float
scores are modelled as rationals; `sorted(..., key=lambda x: -x[1])`
is modelled as a stable insertion sort by descending score. -/

/-- A retrieval candidate document: `table_name` is the fusion key
(`""` models a missing key and is skipped); `payload` stands for the
remaining payload fields of the dict. -/
structure RDoc where
  table_name : String
  payload : String
deriving DecidableEq, Repr

/-- A fused result entry. -/
structure FusedDoc where
  table_name : String
  payload : String
  rrf_score : ℚ
deriving DecidableEq, Repr

/-- `scores[key] += v` on an insertion-ordered association list,
appending a fresh key at the end (defaultdict semantics). -/
def addScore (key : String) (v : ℚ) : List (String × ℚ) → List (String × ℚ)
  | [] => [(key, v)]
  | (k0, s) :: rest =>
      if k0 = key then (k0, s + v) :: rest else (k0, s) :: addScore key v rest

/-- `doc_data[key] = d` (unconditional overwrite, semantic pass). -/
def putSem (key : String) (d : RDoc) : List (String × RDoc) → List (String × RDoc)
  | [] => [(key, d)]
  | (k0, v) :: rest =>
      if k0 = key then (k0, d) :: rest else (k0, v) :: putSem key d rest

/-- `if key not in doc_data: doc_data[key] = d` (keyword pass). -/
def putKw (key : String) (d : RDoc) (dd : List (String × RDoc)) : List (String × RDoc) :=
  if (dd.lookup key).isSome then dd else dd ++ [(key, d)]

/-- One `for rank, doc in enumerate(...)` pass: skip docs with an empty
key, otherwise add `1/(k + rank + 1)` to the key's score and record the
payload through `put`. -/
def rrfPass (put : String → RDoc → List (String × RDoc) → List (String × RDoc))
    (k : Nat) : Nat → List RDoc →
    List (String × ℚ) × List (String × RDoc) → List (String × ℚ) × List (String × RDoc)
  | _, [], acc => acc
  | rank, d :: rest, (sc, dd) =>
      if d.table_name = "" then rrfPass put k (rank + 1) rest (sc, dd)
      else rrfPass put k (rank + 1) rest
        (addScore d.table_name (1 / ((k : ℚ) + rank + 1)) sc, put d.table_name d dd)

/-- The accumulated score/payload maps after both passes (semantic first,
then keyword), in key-first-insertion order. -/
def rrfMaps (keyword_results semantic_results : List RDoc) (k : Nat) :
    List (String × ℚ) × List (String × RDoc) :=
  rrfPass putKw k 0 keyword_results (rrfPass putSem k 0 semantic_results ([], []))

/-- Stable descending insertion: place `x` before the first entry whose
score is not greater than `x`'s. -/
def insertDesc (x : String × ℚ) : List (String × ℚ) → List (String × ℚ)
  | [] => [x]
  | y :: ys => if y.2 ≤ x.2 then x :: y :: ys else y :: insertDesc x ys

/-- Stable sort by descending score (the model of Python's stable
`sorted(scores.items(), key=lambda x: -x[1])`). -/
def sortDesc : List (String × ℚ) → List (String × ℚ)
  | [] => []
  | x :: xs => insertDesc x (sortDesc xs)

/-- `rrf_fusion(keyword_results, semantic_results, k=60, top_k=10)`. -/
def rrf_fusion (keyword_results semantic_results : List RDoc)
    (k : Nat := 60) (top_k : Nat := 10) : List FusedDoc :=
  let (scores, doc_data) := rrfMaps keyword_results semantic_results k
  ((sortDesc scores).take top_k).map (fun e =>
    { table_name := e.1
      payload := ((doc_data.lookup e.1).getD { table_name := "", payload := "" }).payload
      rrf_score := e.2 })

/-! ## Stepwise executor (`graph/nodes.py`, `execute_node` / `aggregate_node` /
`error_node`, graph wiring from `graph/builder.py`)

The LLM and database collaborators are modelled as call-indexed function
parameters; the purely observational `timing` map and the conversation
messages appended by `aggregate_node` are not part of the modelled state. -/

/-- Boolean substring test: does `pat` occur as a contiguous run in the text? -/
def containsSub (pat : List Char) : List Char → Bool
  | [] => pat.isEmpty
  | c :: t => pat.isPrefixOf (c :: t) || containsSub pat t

/-- The retryable-error keyword list of `execute_node` (all lowercase). -/
def retryKeywords : List String :=
  ["syntax", "error in your sql", "unknown column", "doesn" ++ sq ++ "t exist",
   "table", "ambiguous", "parse",
   "not executed", "error parsing query", "undefined identifier",
   "invalid", "measurement not found"]

/-- `any(keyword in error_msg.lower() for keyword in [...])`
(per-character lowercasing models Python `.lower()` for ASCII messages). -/
def isRetryable (msg : String) : Bool :=
  retryKeywords.any (fun kw => containsSub kw.data (msg.data.map Char.toLower))

/-- Per-step execution record (`StepResult` in `graph/state.py`). -/
structure StepRes where
  step_id : Nat
  database : String
  query : String
  results : List Row
  error : Option String
deriving DecidableEq, Repr

/-- Terminal/driving status values of `Text2SQLState.status`. -/
inductive EStatus where
  | running | success | no_result | error
deriving DecidableEq, Repr

/-- The executor-relevant slice of `Text2SQLState`. -/
structure EState where
  question : String
  steps : List QStep
  current_step : Nat
  total_steps : Nat
  step_results : List StepRes
  current_schema : String
  current_context : String
  current_query : String
  retry_count : Nat
  max_retries : Nat
  status : EStatus
  final_results : List Row
  error : Option String
deriving Repr

/-- Graph nodes reachable from the execution loop (`done` is `END`). -/
inductive NodeT where
  | rag | sql_gen | execute | aggregate | error_handler | human_input | done
deriving DecidableEq, Repr

/-- A placeholder step, for out-of-range indexing (never hit on validated plans). -/
def noStep : QStep := { step := 0, database := "", purpose := "", depends_on := none }

/-- `rag_node` as a function of the retrieved schema text: store it,
reset `retry_count`, continue to generation. -/
def rag_node (schema : String) (st : EState) : EState × NodeT :=
  ({ st with current_schema := schema, retry_count := 0 }, NodeT.sql_gen)

/-- `sql_gen_node` as a function of the generated query text. -/
def sql_gen_node (sql : String) (st : EState) : EState × NodeT :=
  ({ st with current_query := sql }, NodeT.execute)

/-- `execute_node` as a function of the execution collaborator's outcome:
terminal step → aggregate; empty intermediate result → `no_result` hard
stop through the error path; non-empty intermediate → compress context
and advance; failure → bounded regenerate-retry or error escalation. -/
def execute_node (res : Except String (List Row)) (st : EState) : EState × NodeT :=
  let step := st.steps.getD st.current_step noStep
  match res with
  | Except.ok result =>
    let new_step := st.current_step + 1
    if st.total_steps ≤ new_step then
      ({ st with
          step_results := st.step_results ++
            [{ step_id := st.current_step, database := step.database,
               query := st.current_query, results := result, error := none }] },
        NodeT.aggregate)
    else if result.isEmpty then
      let emsg := "中间步骤无结果：" ++ step.purpose ++ "。请检查查询条件是否正确。"
      ({ st with
          status := EStatus.no_result
          error := some emsg
          step_results := st.step_results ++
            [{ step_id := st.current_step, database := step.database,
               query := st.current_query, results := [], error := some emsg }]
          final_results := [] },
        NodeT.error_handler)
    else
      ({ st with
          step_results := st.step_results ++
            [{ step_id := st.current_step, database := step.database,
               query := st.current_query, results := result, error := none }]
          current_step := new_step
          current_context := format_context result 20 2000 },
        NodeT.rag)
  | Except.error emsg =>
    if isRetryable emsg ∧ st.retry_count < st.max_retries then
      ({ st with
          retry_count := st.retry_count + 1
          current_context :=
            "上次 SQL 执行失败，错误信息: " ++ emsg ++ "\n请修正 SQL 语法问题。" },
        NodeT.sql_gen)
    else
      let emsg2 :=
        if st.max_retries ≤ st.retry_count then
          "已重试 " ++ toString st.max_retries ++ " 次仍失败: " ++ emsg
        else emsg
      ({ st with error := some ("查询执行失败: " ++ emsg2) }, NodeT.error_handler)

/-- `aggregate_node`: the last completed step's rows become the final
answer; empty terminal results are reported as `no_result`. -/
def aggregate_node (st : EState) : EState × NodeT :=
  let final :=
    match st.step_results.getLast? with
    | some r => r.results
    | none => []
  ({ st with
      status := if final.isEmpty then EStatus.no_result else EStatus.success
      final_results := final },
    NodeT.human_input)

/-- `error_node`: preserve an already-set `no_result` status, otherwise
`error`; clear `final_results`; default the error message. -/
def error_node (st : EState) : EState × NodeT :=
  ({ st with
      status := if st.status = EStatus.no_result then EStatus.no_result else EStatus.error,
      final_results := [],
      error := some (st.error.getD ("未知错误")) },
    NodeT.done)

/-- Driver state: the graph position, the engine state and how many times
each collaborator has been invoked. -/
structure DState where
  st : EState
  node : NodeT
  ragCalls : Nat
  genCalls : Nat
  execCalls : Nat
deriving Repr

/-- One graph transition, feeding each node its collaborator's output
(collaborators are indexed by their call count). -/
def engineStep (ragF genF : Nat → String) (exF : Nat → Except String (List Row))
    (d : DState) : DState :=
  match d.node with
  | NodeT.rag =>
      let p := rag_node (ragF d.ragCalls) d.st
      { d with st := p.1, node := p.2, ragCalls := d.ragCalls + 1 }
  | NodeT.sql_gen =>
      let p := sql_gen_node (genF d.genCalls) d.st
      { d with st := p.1, node := p.2, genCalls := d.genCalls + 1 }
  | NodeT.execute =>
      let p := execute_node (exF d.execCalls) d.st
      { d with st := p.1, node := p.2, execCalls := d.execCalls + 1 }
  | NodeT.aggregate =>
      let p := aggregate_node d.st
      { d with st := p.1, node := p.2 }
  | NodeT.error_handler =>
      let p := error_node d.st
      { d with st := p.1, node := p.2 }
  | NodeT.human_input => { d with node := NodeT.done }
  | NodeT.done => d

/-- Run the engine for at most `fuel` transitions (`done` is absorbing). -/
def runEngine (ragF genF : Nat → String) (exF : Nat → Except String (List Row)) :
    Nat → DState → DState
  | 0, d => d
  | n + 1, d =>
      if d.node = NodeT.done then d
      else runEngine ragF genF exF n (engineStep ragF genF exF d)

/-! ## Query-text sanitization (`agents/sql_generator.py`, `SQLGenerator.generate`)

The post-processing of the LLM's raw text: `strip()`, two regex
substitutions removing markdown code fences, first-`SELECT` selection
among `;`-separated parts, first-non-empty selection among blank-line
separated parts, final `strip()`.  Text is modelled as `List Char`. -/

/-- The backtick character. -/
def bt : Char := Char.ofNat 96

/-- Python's `\s` / `str.strip` whitespace class (ASCII). -/
def pySpace (c : Char) : Bool :=
  c = ' ' || c = '\t' || c = '\n' || c = '\r' || c = Char.ofNat 11 || c = Char.ofNat 12

/-- `str.strip()`: drop whitespace from both ends. -/
def trimChars (l : List Char) : List Char :=
  ((l.dropWhile pySpace).reverse.dropWhile pySpace).reverse

/-- The optional fence language tag `(?:sql|influxql|influx)?`, tried in
the pattern's alternation order. -/
def dropTag (l : List Char) : List Char :=
  if ("sql".data).isPrefixOf l then l.drop 3
  else if ("influxql".data).isPrefixOf l then l.drop 8
  else if ("influx".data).isPrefixOf l then l.drop 6
  else l

/-- What one match of ```` ```(?:sql|influxql|influx)?\s*\n? ```` consumes
after its three backticks (the greedy `\s*` subsumes the `\n?`). -/
def fenceTail (l : List Char) : List Char := (dropTag l).dropWhile pySpace

theorem dropWhile_len_le {α : Type} (p : α → Bool) :
    ∀ l : List α, (l.dropWhile p).length ≤ l.length
  | [] => by simp [List.dropWhile]
  | c :: cs => by
      simp only [List.dropWhile]
      split
      · exact le_trans (dropWhile_len_le p cs) (by simp)
      · simp

theorem fenceTail_length_le (l : List Char) : (fenceTail l).length ≤ l.length := by
  have h1 : (dropTag l).length ≤ l.length := by
    unfold dropTag
    split
    · simp
    split
    · simp
    split
    · simp
    · simp
  exact le_trans (dropWhile_len_le pySpace (dropTag l)) h1

theorem fence1_dec (c : Char) (t : List Char) :
    (fenceTail (t.drop 2)).length < (c :: t).length := by
  have h1 := fenceTail_length_le (t.drop 2)
  have h2 := List.length_drop 2 t
  simp only [List.length_cons]
  omega

/-- `re.sub(r'```(?:sql|influxql|influx)?\s*\n?', '', ·)`: scan left to
right, removing each leftmost match. -/
def fence1 : List Char → List Char
  | [] => []
  | c :: cs =>
    if c = bt ∧ [bt, bt] <+: cs then fence1 (fenceTail (cs.drop 2))
    else c :: fence1 cs
termination_by l => l.length
decreasing_by
  all_goals first
    | exact fence1_dec _ _
    | simp

theorem fence2_dec (c : Char) (t : List Char) (n : Nat) (hn : 1 ≤ n) :
    ((t.drop n).dropWhile pySpace).length < (c :: t).length := by
  have h2 := dropWhile_len_le pySpace (t.drop n)
  have h3 := List.length_drop n t
  simp only [List.length_cons]
  omega

/-- `re.sub(r'\n?```\s*', '', ·)`: the optional leading newline is
consumed greedily when the three backticks follow it. -/
def fence2 : List Char → List Char
  | [] => []
  | c :: cs =>
    if c = '\n' ∧ [bt, bt, bt] <+: cs then fence2 ((cs.drop 3).dropWhile pySpace)
    else if c = bt ∧ [bt, bt] <+: cs then fence2 ((cs.drop 2).dropWhile pySpace)
    else c :: fence2 cs
termination_by l => l.length
decreasing_by
  all_goals first
    | exact fence2_dec _ _ _ (by omega)
    | simp

/-- Prepend a character to the first part of a split. -/
def consHead (c : Char) : List (List Char) → List (List Char)
  | [] => [[c]]
  | p :: ps => (c :: p) :: ps

/-- Python `text.split(';')`. -/
def splitSemi : List Char → List (List Char)
  | [] => [[]]
  | c :: cs => if c = ';' then [] :: splitSemi cs else consHead c (splitSemi cs)

/-- Python `text.split('\n\n')` (leftmost, non-overlapping). -/
def splitBlank : List Char → List (List Char)
  | [] => [[]]
  | c :: cs =>
    if c = '\n' ∧ ['\n'] <+: cs then [] :: splitBlank (cs.drop 1)
    else consHead c (splitBlank cs)
termination_by l => l.length
decreasing_by
  all_goals simp only [List.length_cons, List.length_drop]
  all_goals omega

/-- `part.strip().upper().startswith('SELECT')` (with the redundant
non-emptiness check subsumed by the six-character head). -/
def plausibleSelect (p : List Char) : Bool :=
  ("SELECT".data).isPrefixOf ((trimChars p).map Char.toUpper)

/-- Strategy 1 of `generate`: when a `;` is present, keep only the first
`;`-separated part whose stripped text starts with `SELECT`; keep the
whole text when no part does. -/
def pickSemi (l : List Char) : List Char :=
  if ';' ∈ l then
    match (splitSemi l).find? plausibleSelect with
    | some p => trimChars p
    | none => l
  else l

/-- Strategy 2 of `generate`: when a blank-line boundary is present, keep
only the first part with non-empty stripped text. -/
def pickBlank (l : List Char) : List Char :=
  if containsSub ['\n', '\n'] l = true then
    match (splitBlank l).find? (fun p => !(trimChars p).isEmpty) with
    | some p => trimChars p
    | none => l
  else l

/-- The complete sanitization pipeline applied to the raw LLM output in
`SQLGenerator.generate`. -/
def sanitizeSQL (raw : List Char) : List Char :=
  trimChars (pickBlank (pickSemi (fence2 (fence1 (trimChars raw)))))

/-- Text free of markdown code-fence markers: no occurrence of three
consecutive backticks. -/
def fenceFree (l : List Char) : Prop :=
  ∀ a b : List Char, l ≠ a ++ bt :: bt :: bt :: b

/-- Text that does not start with a backtick. -/
def headSafe (l : List Char) : Prop := ∀ t : List Char, l ≠ bt :: t

/-! ## Specification-side and scenario definitions -/

/-- Twenty-one messages in which the message at position 11 — the start
of the kept suffix — has the assistant role. -/
def cexMsgs : List Msg :=
  (List.range 11).map (fun i => { type := "human", content := toString i }) ++
    [{ type := "ai", content := "dropped" }] ++
    (List.range 9).map (fun i => { type := "human", content := "k" ++ toString i })

/-- A single-step plan whose index is neither 0 nor 1. -/
def cexPlan : List QStep := [{ step := 5, database := "mysql", purpose := "p", depends_on := none }]

/-- A 1000-character identifier value. -/
def bigA : String := String.mk (List.replicate 1000 'a')

/-- A row whose only field is a 1000-character `id`. -/
def cexBigRow : Row := [("id", bigA)]

/-- The accumulated RRF score of a key (0 when absent, as for the
`defaultdict(float)`). -/
def scoreOf (sc : List (String × ℚ)) (key : String) : ℚ :=
  ((sc.lookup key).getD 0)

/-- The contribution of one ranked list to a key's score: the sum of
`1/(k + rank + 1)` over the key's occurrences, ranks counted from `rank`. -/
def listContrib (k : Nat) (key : String) : List RDoc → Nat → ℚ
  | [], _ => 0
  | d :: rest, rank =>
      (if d.table_name = key then 1 / ((k : ℚ) + rank + 1) else 0) +
        listContrib k key rest (rank + 1)

/-- The 0-based rank of a key's first occurrence in a ranked list. -/
def findRank (key : String) : List RDoc → Option Nat
  | [] => none
  | d :: rest => if d.table_name = key then some 0 else (findRank key rest).map (· + 1)

/-- A two-step plan used for the executor scenarios. -/
def cexPlan2 : List QStep :=
  [{ step := 0, database := "mysql", purpose := "lookup device", depends_on := none },
   { step := 1, database := "influxdb", purpose := "query metric", depends_on := some 0 }]

/-- Driver state at the execute node of step 0 of the two-step plan. -/
def cexDExec : DState :=
  { st :=
      { question := "q"
        steps := cexPlan2
        current_step := 0
        total_steps := 2
        step_results := []
        current_schema := ""
        current_context := ""
        current_query := "SELECT 1"
        retry_count := 0
        max_retries := 2
        status := EStatus.running
        final_results := []
        error := none }
    node := NodeT.execute
    ragCalls := 1
    genCalls := 1
    execCalls := 0 }

/-- Driver state entering generation of a one-step plan with retry count 0. -/
def cexDGen : DState :=
  { st :=
      { question := "q"
        steps := [{ step := 0, database := "mysql", purpose := "p", depends_on := none }]
        current_step := 0
        total_steps := 1
        step_results := []
        current_schema := ""
        current_context := ""
        current_query := ""
        retry_count := 0
        max_retries := 2
        status := EStatus.running
        final_results := []
        error := none }
    node := NodeT.sql_gen
    ragCalls := 1
    genCalls := 0
    execCalls := 0 }

/-! ## Supporting lemmas -/

theorem head_dropWhile_not {α : Type} (p : α → Bool) :
    ∀ (l : List α) (m : α), (l.dropWhile p).head? = some m → p m = false
  | [], m => by simp [List.dropWhile]
  | c :: t, m => by
      simp only [List.dropWhile]
      split
      · exact head_dropWhile_not p t m
      · intro h
        simp only [List.head?_cons, Option.some.injEq] at h
        subst h
        simp_all

/-! ## C6 / C7: session-memory window -/

/-- C6: once the concatenation of existing and appended messages exceeds
the 20-message trim threshold, the merged window has at most 10 messages
and starts with a human message (or is empty); concatenations of at most
20 messages are returned unchanged. -/
theorem add_messages_trim_invariant (l r : List Msg) :
    (20 < (l ++ r).length →
      (add_messages l r).length ≤ 10 ∧
      ∀ m, (add_messages l r).head? = some m → m.type = "human") ∧
    ((l ++ r).length ≤ 20 → add_messages l r = l ++ r) := by
  unfold add_messages
  constructor
  · intro h
    simp only [h, if_true]
    constructor
    · have h1 := dropWhile_len_le (fun m : Msg => decide (m.type ≠ "human"))
        ((l ++ r).drop ((l ++ r).length - 10))
      have h2 := List.length_drop ((l ++ r).length - 10) (l ++ r)
      omega
    · intro m hm
      have := head_dropWhile_not (fun m : Msg => decide (m.type ≠ "human")) _ m hm
      simpa using this
  · intro h
    have h' : ¬ 20 < (l ++ r).length := by omega
    simp only [h', if_false]

/-- C6 witness: a 21-message window trims to at most 10, a 1-message
window is unchanged. -/
theorem add_messages_trim_invariant_holds :
    (add_messages (List.replicate 20 { type := "human", content := "x" })
        [{ type := "human", content := "y" }]).length ≤ 10 ∧
    add_messages [{ type := "human", content := "q" }] [] =
      [{ type := "human", content := "q" }] :=
  ⟨((add_messages_trim_invariant _ _).1 (by decide)).1,
    (add_messages_trim_invariant _ _).2 (by decide)⟩

/-- C7 counterexample: the assistant message at position 11 is removed
from the window (by the leading-role adjustment) yet is absent from the
batch handed to archival. -/
theorem add_messages_drop_not_archived :
    ({ type := "ai", content := "dropped" } : Msg) ∈ cexMsgs ++ ([] : List Msg) ∧
    ({ type := "ai", content := "dropped" } : Msg) ∉ add_messages cexMsgs [] ∧
    ({ type := "ai", content := "dropped" } : Msg) ∉ trim_archive_batch cexMsgs [] := by
  decide

/-- C7 amended: when the threshold is exceeded, the archival batch is
exactly the prefix removed by the length trim (so batch and kept suffix
together recompose the input; only messages additionally dropped by the
leading-role adjustment escape archival), and the returned window never
depends on the archiver's outcome. -/
theorem trim_archive_batch_spec (ar1 ar2 : List Msg → Except String Nat)
    (l r : List Msg) (h : 20 < (l ++ r).length) :
    trim_archive_batch l r ++ (l ++ r).drop ((l ++ r).length - 10) = l ++ r ∧
    (add_messages_run ar1 l r).1 = add_messages l r ∧
    (add_messages_run ar1 l r).1 = (add_messages_run ar2 l r).1 := by
  refine ⟨?_, ?_, ?_⟩
  · unfold trim_archive_batch
    simp only [h, if_true]
    exact List.take_append_drop _ _
  · unfold add_messages_run add_messages
    simp only [h, if_true]
  · unfold add_messages_run
    simp only [h, if_true]

/-- C7 amended witness at a concrete 21-message window and two archivers
(one failing, one succeeding). -/
theorem trim_archive_batch_spec_holds :
    (trim_archive_batch (List.replicate 21 ({ type := "human", content := "x" } : Msg)) [] ++
      ((List.replicate 21 ({ type := "human", content := "x" } : Msg) ++ []).drop
        ((List.replicate 21 ({ type := "human", content := "x" } : Msg) ++ []).length - 10))) =
      List.replicate 21 ({ type := "human", content := "x" } : Msg) ++ [] ∧
    (add_messages_run (fun _ => Except.error "boom")
        (List.replicate 21 { type := "human", content := "x" }) []).1 =
      add_messages (List.replicate 21 { type := "human", content := "x" }) [] ∧
    (add_messages_run (fun _ => Except.error "boom")
        (List.replicate 21 { type := "human", content := "x" }) []).1 =
      (add_messages_run (fun _ => Except.ok 7)
        (List.replicate 21 { type := "human", content := "x" }) []).1 :=
  trim_archive_batch_spec _ _ _ _ (by decide)

/-! ## C5: plan index validation -/

/-- C5 counterexample: a one-step plan with step index 5 — not the
0-based nor the 1-based contiguous sequence — passes validation with no
error at all, because the contiguity check is gated by `len(steps) > 1`. -/
theorem plan_validator_single_step_unchecked :
    plan_validator cexPlan = [] ∧
    cexPlan.map (fun s => s.step) ≠ seqFrom0 cexPlan.length ∧
    cexPlan.map (fun s => s.step) ≠ seqFrom1 cexPlan.length := by
  decide

/-- C5 amended: for plans with at least two steps the validator reports
an index error exactly when the step indices are neither the contiguous
0-based nor the contiguous 1-based sequence; single-step plans are
exempt from the index check. -/
theorem nonContig_notin_dbErrors (steps : List QStep) (ids : List Int) :
    PlanError.nonContiguous ids ∉ dbErrors steps := by
  intro h
  rcases List.mem_filterMap.mp h with ⟨s, _, hs⟩
  split at hs <;> simp_all

theorem nonContig_notin_depErrors (steps : List QStep) (ids : List Int) :
    PlanError.nonContiguous ids ∉ depErrors steps := by
  intro h
  unfold depErrors at h
  split at h
  · rcases List.mem_filterMap.mp h with ⟨s, _, hs⟩
    rcases hd : s.depends_on with _ | d <;> rw [hd] at hs
    · simp_all
    · split at hs <;> simp_all
  · simp at h

theorem plan_validator_index_spec :
    (∀ steps : List QStep, 2 ≤ steps.length →
      ((∃ ids, PlanError.nonContiguous ids ∈ plan_validator steps) ↔
        (steps.map (fun s => s.step) ≠ seqFrom0 steps.length ∧
         steps.map (fun s => s.step) ≠ seqFrom1 steps.length))) ∧
    (∀ (s : QStep) (ids : List Int), PlanError.nonContiguous ids ∉ plan_validator [s]) := by
  have hsplit : ∀ (steps : List QStep) (ids : List Int), steps.isEmpty = false →
      (PlanError.nonContiguous ids ∈ plan_validator steps ↔
        PlanError.nonContiguous ids ∈ idxErrors steps) := by
    intro steps ids hne
    unfold plan_validator
    simp only [hne, Bool.false_eq_true, if_false, List.append_assoc, List.mem_append]
    constructor
    · rintro (h | h | h)
      · exact h
      · exact absurd h (nonContig_notin_dbErrors steps ids)
      · exact absurd h (nonContig_notin_depErrors steps ids)
    · exact fun h => Or.inl h
  constructor
  · intro steps h2
    have hne : steps.isEmpty = false := by
      cases steps with
      | nil => simp at h2
      | cons a t => simp
    have h1 : 1 < steps.length := by omega
    constructor
    · rintro ⟨ids, hids⟩
      have hidx := (hsplit steps ids hne).mp hids
      unfold idxErrors at hidx
      rw [if_pos h1] at hidx
      split at hidx
      · next hc => exact hc
      · simp at hidx
    · intro hc
      refine ⟨steps.map (fun s => s.step), (hsplit steps _ hne).mpr ?_⟩
      unfold idxErrors
      rw [if_pos h1, if_pos hc]
      simp
  · intro s ids h
    have hidx := (hsplit [s] ids (by simp)).mp h
    unfold idxErrors at hidx
    have h1 : ¬ 1 < ([s] : List QStep).length := by simp
    rw [if_neg h1] at hidx
    simp at hidx

/-- C5 amended witness: a two-step plan with indices `[0, 2]` triggers
the index error; with indices `[1, 2]` it does not. -/
theorem plan_validator_index_spec_holds :
    ((∃ ids, PlanError.nonContiguous ids ∈ plan_validator
        [{ step := 0, database := "mysql", purpose := "a", depends_on := none },
         { step := 2, database := "mysql", purpose := "b", depends_on := none }]) ↔
      ([0, 2] ≠ seqFrom0 2 ∧ [0, 2] ≠ seqFrom1 2)) ∧
    PlanError.nonContiguous [5] ∉ plan_validator cexPlan :=
  ⟨(plan_validator_index_spec.1 _ (by decide)),
    plan_validator_index_spec.2 _ _⟩

/-! ## C8: context-compressor boundedness -/

theorem joinSep_replicate_length (sep x : String) :
    ∀ n, (joinSep sep (List.replicate (n + 1) x)).length = (n + 1) * x.length + n * sep.length := by
  intro n
  induction n with
  | zero => simp [List.replicate, joinSep]
  | succ m ih =>
      have hstep : joinSep sep (x :: x :: List.replicate m x) =
          x ++ sep ++ joinSep sep (x :: List.replicate m x) := rfl
      rw [List.replicate_succ, List.replicate_succ, hstep, ← List.replicate_succ,
        String.length_append, String.length_append, ih]
      ring

theorem filterMap_replicate {α β : Type} (f : α → Option β) (x : α) :
    ∀ n, (List.replicate n x).filterMap f =
      (match f x with | some v => List.replicate n v | none => []) := by
  intro n
  induction n with
  | zero => rcases h : f x with _ | v <;> simp
  | succ m ih =>
      rw [List.replicate_succ, List.filterMap_cons]
      rcases h : f x with _ | v
      · rw [h] at ih; simpa using ih
      · rw [h] at ih; simp [ih, List.replicate_succ]

theorem mem_of_lookup {β : Type} (k : String) (v : β) :
    ∀ l : List (String × β), List.lookup k l = some v → (k, v) ∈ l := by
  intro l
  induction l with
  | nil => simp [List.lookup]
  | cons kv t ih =>
      obtain ⟨k1, v1⟩ := kv
      intro h
      by_cases hkk : k = k1
      · subst hkk
        simp [List.lookup] at h
        subst h
        exact List.mem_cons_self _ _
      · have hbe : (k == k1) = false := by simpa using hkk
        simp [List.lookup, hbe] at h
        exact List.mem_cons_of_mem _ (ih h)

theorem truthyGet_mem (row : Row) (k v : String) (h : truthyGet row k = some v) :
    (k, v) ∈ row := by
  unfold truthyGet at h
  rcases h1 : List.lookup k row with _ | w <;> rw [h1] at h
  · simp at h
  · have h' : (if w = "" then none else some w) = some v := h
    by_cases hw : w = ""
    · rw [if_pos hw] at h'; simp at h'
    · rw [if_neg hw] at h'
      simp only [Option.some.injEq] at h'
      subst h'
      exact mem_of_lookup _ _ _ h1

/-- If `r.get("id") or r.get("serial")` produced a value, it is one of
the row's values. -/
theorem idOrSerial_mem (row : Row) (v : String) (h : idOrSerial row = some v) :
    ∃ k, (k, v) ∈ row := by
  unfold idOrSerial at h
  rcases h1 : truthyGet row "id" with _ | w <;> rw [h1] at h
  · exact ⟨"serial", truthyGet_mem _ _ _ h⟩
  · simp only [Option.some.injEq] at h
    subst h
    exact ⟨"id", truthyGet_mem _ _ _ h1⟩

/-- `format_context` on 1000 identical rows, reduced to its two-tier
branch on the token estimate. -/
theorem format_context_replicate_1000 (row : Row) :
    format_context (List.replicate 1000 row) 20 2000 =
      (if 2000 <
          ("上一步查询返回 " ++ toString (1000 : Nat) ++ " 条记录" ++
            ("（仅显示前 " ++ toString (20 : Nat) ++ " 条）") ++ ":\n" ++
            joinSep ("\n") (List.replicate 20 (summaryOf row))).length / 4 then
        "上一步查询返回 " ++ toString (1000 : Nat) ++ " 条记录，关键ID: " ++
          pyListRepr ((List.replicate 10 row).filterMap idOrSerial)
      else
        "上一步查询返回 " ++ toString (1000 : Nat) ++ " 条记录" ++
          ("（仅显示前 " ++ toString (20 : Nat) ++ " 条）") ++ ":\n" ++
          joinSep ("\n") (List.replicate 20 (summaryOf row))) := by
  have hlen : (List.replicate 1000 row).length = 1000 := List.length_replicate 1000 row
  have hne : (List.replicate 1000 row).isEmpty = false := by
    cases hrep : List.replicate 1000 row with
    | nil =>
        exfalso
        rw [hrep, List.length_nil] at hlen
        omega
    | cons a t => rfl
  have htr : (20 : Nat) < 1000 := by omega
  have htk : (List.replicate 1000 row).take 20 = List.replicate 20 row := by
    rw [List.take_replicate]
    norm_num
  have htk10 : (List.replicate 20 row).take 10 = List.replicate 10 row := by
    rw [List.take_replicate]
    norm_num
  unfold format_context
  simp only [hne, Bool.false_eq_true, if_false, hlen, htr, if_true, htk, htk10,
    List.map_replicate]

theorem bigA_length : bigA.length = 1000 :=
  List.length_replicate 1000 'a'

theorem bigA_ne_empty : bigA ≠ "" := by
  intro h
  have h2 := congrArg String.length h
  rw [bigA_length] at h2
  rw [show ("" : String).length = 0 from rfl] at h2
  omega

theorem pyStrRepr_length (v : String) : (pyStrRepr v).length = v.length + 2 := by
  unfold pyStrRepr
  rw [String.length_append, String.length_append,
    show sq.length = 1 from rfl]
  omega

theorem summaryOf_cexBigRow_length : (summaryOf cexBigRow).length = 1010 := by
  have hrkv : rowKeyValues cexBigRow = [("id", bigA)] := rfl
  unfold summaryOf
  rw [hrkv]
  show (pyDictRepr [("id", bigA)]).length = 1010
  show ("\x7b" ++ (pyStrRepr ("id") ++ ": " ++ pyStrRepr bigA) ++ "\x7d").length = 1010
  rw [String.length_append, String.length_append, String.length_append,
    String.length_append, pyStrRepr_length, pyStrRepr_length, bigA_length]
  rfl

theorem pyListRepr_replicate_length (v : String) :
    (pyListRepr (List.replicate 10 v)).length = 10 * v.length + 40 := by
  unfold pyListRepr
  rw [List.map_replicate, String.length_append, String.length_append,
    joinSep_replicate_length (", ") (pyStrRepr v) 9, pyStrRepr_length,
    show ("[" : String).length = 1 from rfl,
    show ("]" : String).length = 1 from rfl,
    show (", " : String).length = 2 from rfl]
  ring

theorem idOrSerial_cexBigRow : idOrSerial cexBigRow = some bigA := by
  have htg : truthyGet cexBigRow "id" = some bigA := by
    have hlk : List.lookup ("id") cexBigRow = some bigA := rfl
    unfold truthyGet
    rw [hlk]
    show (if bigA = "" then none else some bigA) = some bigA
    rw [if_neg bigA_ne_empty]
  unfold idOrSerial
  rw [htg]

/-- C8 counterexample: on 1000 identical rows whose `id` value has 1000
characters, the compressed context's estimated token count is strictly
greater than `max_tokens = 2000` (both tiers grow linearly with the
identifier length). -/
theorem format_context_exceeds_bound :
    2000 < (format_context (List.replicate 1000 cexBigRow) 20 2000).length / 4 := by
  rw [format_context_replicate_1000 cexBigRow]
  have hjoin : (joinSep ("\n") (List.replicate 20 (summaryOf cexBigRow))).length = 20219 := by
    rw [joinSep_replicate_length ("\n") (summaryOf cexBigRow) 19,
      summaryOf_cexBigRow_length]
    rfl
  have hcond : 2000 <
      ("上一步查询返回 " ++ toString (1000 : Nat) ++ " 条记录" ++
        ("（仅显示前 " ++ toString (20 : Nat) ++ " 条）") ++ ":\n" ++
        joinSep ("\n") (List.replicate 20 (summaryOf cexBigRow))).length / 4 := by
    simp only [String.length_append]
    rw [hjoin, show ("上一步查询返回 " : String).length = 8 from rfl,
      show (" 条记录" : String).length = 4 from rfl,
      show ("（仅显示前 " : String).length = 6 from rfl,
      show (" 条）" : String).length = 3 from rfl,
      show (":\n" : String).length = 2 from rfl,
      show (toString (1000 : Nat)).length = 4 from by decide,
      show (toString (20 : Nat)).length = 2 from by decide]
    omega
  rw [if_pos hcond]
  have hids : (List.replicate 10 cexBigRow).filterMap idOrSerial =
      List.replicate 10 bigA := by
    rw [filterMap_replicate, idOrSerial_cexBigRow]
  rw [hids]
  simp only [String.length_append]
  rw [pyListRepr_replicate_length, bigA_length,
    show ("上一步查询返回 " : String).length = 8 from rfl,
    show (" 条记录，关键ID: " : String).length = 11 from rfl,
    show (toString (1000 : Nat)).length = 4 from by decide]
  omega

/-- C8 amended: on 1000 identical rows the compressed context meets the
token-estimate bound whenever the row's field values (hence any `id` /
`serial` identifier pulled into the collapsed digest) have at most 790
characters; unboundedly long identifier values break the bound.  The
empty row list always yields the fixed no-result sentinel. -/
theorem format_context_bound (row : Row)
    (hval : ∀ kv ∈ row, (kv : String × String).2.length ≤ 790) :
    (format_context (List.replicate 1000 row) 20 2000).length / 4 ≤ 2000 ∧
    format_context ([] : List Row) 20 2000 = "上一步查询无结果" := by
  constructor
  · rw [format_context_replicate_1000 row]
    by_cases hc : 2000 <
        ("上一步查询返回 " ++ toString (1000 : Nat) ++ " 条记录" ++
          ("（仅显示前 " ++ toString (20 : Nat) ++ " 条）") ++ ":\n" ++
          joinSep ("\n") (List.replicate 20 (summaryOf row))).length / 4
    · rw [if_pos hc]
      rcases hio : idOrSerial row with _ | v
      · have hids : (List.replicate 10 row).filterMap idOrSerial = [] := by
          rw [filterMap_replicate, hio]
        rw [hids]
        simp only [String.length_append]
        rw [show (pyListRepr ([] : List String)).length = 2 from rfl,
          show ("上一步查询返回 " : String).length = 8 from rfl,
          show (" 条记录，关键ID: " : String).length = 11 from rfl,
          show (toString (1000 : Nat)).length = 4 from by decide]
        omega
      · obtain ⟨k, hkmem⟩ := idOrSerial_mem row v hio
        have hv : v.length ≤ 790 := hval (k, v) hkmem
        have hids : (List.replicate 10 row).filterMap idOrSerial =
            List.replicate 10 v := by
          rw [filterMap_replicate, hio]
        rw [hids]
        simp only [String.length_append]
        rw [pyListRepr_replicate_length,
          show ("上一步查询返回 " : String).length = 8 from rfl,
          show (" 条记录，关键ID: " : String).length = 11 from rfl,
          show (toString (1000 : Nat)).length = 4 from by decide]
        omega
    · rw [if_neg hc]
      omega
  · rfl

/-- C8 amended witness at a concrete short-id row. -/
theorem format_context_bound_holds :
    (format_context (List.replicate 1000 [("id", "X1")]) 20 2000).length / 4 ≤ 2000 ∧
    format_context ([] : List Row) 20 2000 = "上一步查询无结果" :=
  format_context_bound [("id", "X1")] (by decide)

/-! ## C3: fused-score formula -/

theorem scoreOf_addScore (key k2 : String) (v : ℚ) :
    ∀ sc : List (String × ℚ),
      scoreOf (addScore k2 v sc) key = scoreOf sc key + (if k2 = key then v else 0) := by
  intro sc
  induction sc with
  | nil =>
      by_cases h : k2 = key
      · subst h
        simp [addScore, scoreOf, List.lookup]
      · have hbe : (key == k2) = false := by simpa using fun hh => h hh.symm
        simp [addScore, scoreOf, List.lookup, hbe, h]
  | cons e rest ih =>
      obtain ⟨k0, s⟩ := e
      by_cases h0 : k0 = k2
      · subst h0
        by_cases hk : key = k0
        · subst hk
          simp [addScore, scoreOf, List.lookup]
        · have hbe : (key == k0) = false := by simpa using hk
          have hif : (if k0 = key then v else 0) = 0 := if_neg (fun hh => hk hh.symm)
          simp [addScore, scoreOf, List.lookup, hbe, hif]
      · by_cases hk : key = k0
        · subst hk
          have hne : k2 ≠ key := fun hh => h0 hh.symm
          simp [addScore, scoreOf, List.lookup, h0, hne]
        · have hbe : (key == k0) = false := by simpa using hk
          simp only [addScore, if_neg h0]
          simp only [scoreOf, List.lookup, hbe]
          exact ih

theorem scoreOf_rrfPass
    (put : String → RDoc → List (String × RDoc) → List (String × RDoc))
    (k : Nat) (key : String) (hkey : key ≠ "") :
    ∀ (docs : List RDoc) (rank : Nat)
      (acc : List (String × ℚ) × List (String × RDoc)),
      scoreOf (rrfPass put k rank docs acc).1 key =
        scoreOf acc.1 key + listContrib k key docs rank := by
  intro docs
  induction docs with
  | nil => intro rank acc; simp [rrfPass, listContrib]
  | cons d rest ih =>
      intro rank acc
      obtain ⟨sc, dd⟩ := acc
      by_cases hd : d.table_name = ""
      · have hdk : ("" : String) ≠ key := fun hh => hkey hh.symm
        simp only [rrfPass, hd, if_true, listContrib, if_neg hdk]
        rw [ih]
        ring
      · simp only [rrfPass, hd, if_false, listContrib]
        rw [ih]
        simp only [scoreOf_addScore]
        by_cases hdk : d.table_name = key
        · simp only [if_pos hdk]
          ring
        · simp only [if_neg hdk]
          ring

theorem listContrib_of_absent (k : Nat) (key : String) :
    ∀ (docs : List RDoc) (rank : Nat),
      (∀ d ∈ docs, d.table_name ≠ key) → listContrib k key docs rank = 0 := by
  intro docs
  induction docs with
  | nil => intro rank _; simp [listContrib]
  | cons d rest ih =>
      intro rank h
      simp only [listContrib, if_neg (h d (List.mem_cons_self d rest))]
      rw [ih (rank + 1) (fun x hx => h x (List.mem_cons_of_mem d hx))]
      ring

theorem countP_zero_absent (key : String) (docs : List RDoc)
    (h : docs.countP (fun d => d.table_name == key) = 0) :
    ∀ d ∈ docs, d.table_name ≠ key := by
  intro d hd he
  have hpos : 0 < docs.countP (fun d => d.table_name == key) :=
    List.countP_pos_iff.mpr ⟨d, hd, by simpa using he⟩
  omega

theorem listContrib_eq_findRank (k : Nat) (key : String) :
    ∀ (docs : List RDoc) (rank : Nat),
      docs.countP (fun d => d.table_name == key) ≤ 1 →
      listContrib k key docs rank =
        (match findRank key docs with
         | some r => 1 / ((k : ℚ) + ((rank + r : Nat) : ℚ) + 1)
         | none => 0) := by
  intro docs
  induction docs with
  | nil => intro rank _; simp [listContrib, findRank]
  | cons d rest ih =>
      intro rank hcount
      by_cases hd : d.table_name = key
      · have hc1 : rest.countP (fun d => d.table_name == key) = 0 := by
          rw [List.countP_cons_of_pos (fun d : RDoc => d.table_name == key)
            (l := rest) (by simpa using hd)] at hcount
          omega
        simp only [listContrib, findRank, if_pos hd]
        rw [listContrib_of_absent k key rest (rank + 1) (countP_zero_absent key rest hc1)]
        norm_num
      · have hc : rest.countP (fun d => d.table_name == key) ≤ 1 := by
          rw [List.countP_cons_of_neg (fun d : RDoc => d.table_name == key)
            (l := rest) (by simpa using hd)] at hcount
          exact hcount
        rcases hf : findRank key rest with _ | r
        · have hfr : findRank key (d :: rest) = none := by
            simp [findRank, if_neg hd, hf]
          simp only [hfr, listContrib, if_neg hd]
          rw [ih (rank + 1) hc]
          simp only [hf]
          ring
        · have hfr : findRank key (d :: rest) = some (r + 1) := by
            simp [findRank, if_neg hd, hf]
          simp only [hfr, listContrib, if_neg hd]
          rw [ih (rank + 1) hc]
          simp only [hf]
          have harith : (rank + 1 + r : Nat) = (rank + (r + 1) : Nat) := by omega
          rw [harith]
          ring

/-- C3: for every pair of input lists in which the key occurs at most
once per list (so that "its rank" is well defined), the fused score of a
(non-empty) key is the sum, over the lists containing it, of
`1/(k + rank + 1)`; a list not containing the key contributes 0
(the `none` arm), and a key at rank 0 in both lists scores `2/(k+1)`. -/
theorem rrf_fusion_score (kw sem : List RDoc) (k : Nat) (key : String)
    (hkey : key ≠ "")
    (hsem : sem.countP (fun d => d.table_name == key) ≤ 1)
    (hkw : kw.countP (fun d => d.table_name == key) ≤ 1) :
    scoreOf (rrfMaps kw sem k).1 key =
      (match findRank key sem with
       | some r => 1 / ((k : ℚ) + ((r : Nat) : ℚ) + 1)
       | none => 0) +
      (match findRank key kw with
       | some r => 1 / ((k : ℚ) + ((r : Nat) : ℚ) + 1)
       | none => 0) ∧
    (findRank key sem = some 0 → findRank key kw = some 0 →
      scoreOf (rrfMaps kw sem k).1 key = 2 / ((k : ℚ) + 1)) := by
  have hmain : scoreOf (rrfMaps kw sem k).1 key =
      (match findRank key sem with
       | some r => 1 / ((k : ℚ) + ((r : Nat) : ℚ) + 1)
       | none => 0) +
      (match findRank key kw with
       | some r => 1 / ((k : ℚ) + ((r : Nat) : ℚ) + 1)
       | none => 0) := by
    unfold rrfMaps
    rw [scoreOf_rrfPass putKw k key hkey kw 0, scoreOf_rrfPass putSem k key hkey sem 0]
    rw [listContrib_eq_findRank k key sem 0 hsem, listContrib_eq_findRank k key kw 0 hkw]
    have h0 : scoreOf ([] : List (String × ℚ)) key = 0 := rfl
    rw [h0]
    rcases findRank key sem with _ | r <;> rcases findRank key kw with _ | r2 <;>
      simp
  refine ⟨hmain, ?_⟩
  intro hs hk2
  rw [hmain, hs, hk2]
  show (1 : ℚ) / ((k : ℚ) + (((0 : Nat) : Nat) : ℚ) + 1) +
      1 / ((k : ℚ) + (((0 : Nat) : Nat) : ℚ) + 1) = 2 / ((k : ℚ) + 1)
  rw [Nat.cast_zero, add_zero, div_add_div_same]
  norm_num

/-- C3 witness: a key at rank 0 in both lists (k = 60) scores `2/61`. -/
theorem rrf_fusion_score_holds :
    scoreOf (rrfMaps [{ table_name := "t", payload := "pk" }]
        [{ table_name := "t", payload := "ps" }] 60).1 "t" = 2 / 61 := by
  have h := rrf_fusion_score [{ table_name := "t", payload := "pk" }]
    [{ table_name := "t", payload := "ps" }] 60 "t" (by decide) (by decide) (by decide)
  have h2 := h.2 (by decide) (by decide)
  rw [h2]
  norm_num

/-! ## C4: fusion determinism and ordering -/

theorem mem_insertDesc (x z : String × ℚ) :
    ∀ l, z ∈ insertDesc x l ↔ z = x ∨ z ∈ l := by
  intro l
  induction l with
  | nil => simp [insertDesc]
  | cons y ys ih =>
      simp only [insertDesc]
      split
      · simp [List.mem_cons]
      · simp only [List.mem_cons, ih]
        tauto

theorem insertDesc_pairwise (pos : String × ℚ → Nat) (x : String × ℚ) :
    ∀ l : List (String × ℚ),
      l.Pairwise (fun a b => b.2 < a.2 ∨ (a.2 = b.2 ∧ pos a < pos b)) →
      (∀ y ∈ l, pos x < pos y) →
      (insertDesc x l).Pairwise (fun a b => b.2 < a.2 ∨ (a.2 = b.2 ∧ pos a < pos b)) := by
  intro l
  induction l with
  | nil => intro _ _; simp [insertDesc]
  | cons y ys ih =>
      intro hp hpos
      obtain ⟨hyall, hys⟩ := List.pairwise_cons.mp hp
      simp only [insertDesc]
      by_cases hle : y.2 ≤ x.2
      · rw [if_pos hle]
        refine List.pairwise_cons.mpr ⟨?_, hp⟩
        intro z hz
        rcases List.mem_cons.mp hz with hzy | hzys
        · subst hzy
          rcases lt_or_eq_of_le hle with hlt | heq
          · exact Or.inl hlt
          · exact Or.inr ⟨heq.symm, hpos z (List.mem_cons_self z ys)⟩
        · have hyz := hyall z hzys
          have hz2 : z.2 ≤ y.2 := by
            rcases hyz with hlt | ⟨heq, _⟩
            · exact le_of_lt hlt
            · exact le_of_eq heq.symm
          have hz2x : z.2 ≤ x.2 := le_trans hz2 hle
          rcases lt_or_eq_of_le hz2x with hlt | heq
          · exact Or.inl hlt
          · exact Or.inr ⟨heq.symm, hpos z (List.mem_cons_of_mem y hzys)⟩
      · rw [if_neg hle]
        have hx2 : x.2 < y.2 := lt_of_not_le hle
        refine List.pairwise_cons.mpr
          ⟨?_, ih hys (fun y' hy' => hpos y' (List.mem_cons_of_mem y hy'))⟩
        intro z hz
        rcases (mem_insertDesc x z ys).mp hz with hzx | hzys
        · subst hzx
          exact Or.inl hx2
        · exact hyall z hzys

theorem mem_sortDesc (z : String × ℚ) :
    ∀ l, z ∈ sortDesc l ↔ z ∈ l := by
  intro l
  induction l with
  | nil => simp [sortDesc]
  | cons x xs ih =>
      simp only [sortDesc, mem_insertDesc, List.mem_cons, ih]

theorem sortDesc_pairwise (pos : String × ℚ → Nat) :
    ∀ l : List (String × ℚ), l.Pairwise (fun a b => pos a < pos b) →
      (sortDesc l).Pairwise (fun a b => b.2 < a.2 ∨ (a.2 = b.2 ∧ pos a < pos b)) := by
  intro l
  induction l with
  | nil => intro _; simp [sortDesc]
  | cons x xs ih =>
      intro hp
      obtain ⟨hxall, hxs⟩ := List.pairwise_cons.mp hp
      simp only [sortDesc]
      refine insertDesc_pairwise pos x (sortDesc xs) (ih hxs) ?_
      intro y hy
      exact hxall y ((mem_sortDesc y xs).mp hy)

theorem keys_addScore (k2 : String) (v : ℚ) :
    ∀ sc : List (String × ℚ),
      (addScore k2 v sc).map Prod.fst =
        if k2 ∈ sc.map Prod.fst then sc.map Prod.fst else sc.map Prod.fst ++ [k2] := by
  intro sc
  induction sc with
  | nil => simp [addScore]
  | cons e rest ih =>
      obtain ⟨k0, s⟩ := e
      by_cases h : k0 = k2
      · subst h
        simp [addScore]
      · have hne : k2 ≠ k0 := fun hh => h hh.symm
        simp only [addScore, if_neg h, List.map_cons, ih, List.mem_cons]
        by_cases hmem : k2 ∈ rest.map Prod.fst
        · simp [hmem, hne]
        · simp [hmem, hne]

theorem nodup_keys_addScore (k2 : String) (v : ℚ) (sc : List (String × ℚ))
    (h : (sc.map Prod.fst).Nodup) : ((addScore k2 v sc).map Prod.fst).Nodup := by
  rw [keys_addScore]
  split
  · exact h
  · next hnm =>
    rw [List.nodup_append]
    exact ⟨h, List.nodup_singleton k2,
      fun a ha hb => hnm (by rwa [List.mem_singleton.mp hb] at ha)⟩

theorem nodup_keys_rrfPass
    (put : String → RDoc → List (String × RDoc) → List (String × RDoc)) (k : Nat) :
    ∀ (docs : List RDoc) (rank : Nat) (acc : List (String × ℚ) × List (String × RDoc)),
      (acc.1.map Prod.fst).Nodup →
      ((rrfPass put k rank docs acc).1.map Prod.fst).Nodup := by
  intro docs
  induction docs with
  | nil => intro rank acc h; simpa [rrfPass] using h
  | cons d rest ih =>
      intro rank acc h
      obtain ⟨sc, dd⟩ := acc
      by_cases hd : d.table_name = ""
      · simp only [rrfPass, hd, if_true]
        exact ih (rank + 1) (sc, dd) h
      · simp only [rrfPass, hd, if_false]
        exact ih (rank + 1) _ (nodup_keys_addScore _ _ _ h)

theorem pairwise_indexOf :
    ∀ l : List (String × ℚ), (l.map Prod.fst).Nodup →
      l.Pairwise (fun a b =>
        (l.map Prod.fst).indexOf a.1 < (l.map Prod.fst).indexOf b.1) := by
  intro l
  induction l with
  | nil => intro _; simp
  | cons x xs ih =>
      intro hnd
      rw [List.map_cons] at hnd
      obtain ⟨hx1, hxs⟩ := List.nodup_cons.mp hnd
      refine List.pairwise_cons.mpr ⟨?_, ?_⟩
      · intro b hb
        have hbne : b.1 ≠ x.1 := by
          intro hh
          exact hx1 (hh ▸ List.mem_map_of_mem Prod.fst hb)
        rw [List.map_cons, List.indexOf_cons_self, List.indexOf_cons_ne _ hbne.symm]
        omega
      · have hpw := ih hxs
        refine List.Pairwise.imp_of_mem ?_ hpw
        intro a b ha hb hab
        have hane : a.1 ≠ x.1 := by
          intro hh
          exact hx1 (hh ▸ List.mem_map_of_mem Prod.fst ha)
        have hbne : b.1 ≠ x.1 := by
          intro hh
          exact hx1 (hh ▸ List.mem_map_of_mem Prod.fst hb)
        rw [List.map_cons, List.indexOf_cons_ne _ hane.symm, List.indexOf_cons_ne _ hbne.symm]
        omega

theorem rrf_fusion_eq (kw sem : List RDoc) (k top_k : Nat) :
    rrf_fusion kw sem k top_k =
      ((sortDesc (rrfMaps kw sem k).1).take top_k).map (fun e =>
        { table_name := e.1
          payload := (((rrfMaps kw sem k).2.lookup e.1).getD
            { table_name := "", payload := "" }).payload
          rrf_score := e.2 }) := by
  unfold rrf_fusion
  rcases hm : rrfMaps kw sem k with ⟨sc, dd⟩
  simp only [hm]

/-- C4: fusion is a pure function — two calls on the same inputs yield
identical output — and the output is sorted by strictly descending
score with ties broken by the order keys were first inserted into the
score map (semantic-discovered keys first, then keyword-only keys, as
`rrfMaps` builds them). -/
theorem rrf_fusion_deterministic_sorted (kw sem : List RDoc) (k top_k : Nat) :
    rrf_fusion kw sem k top_k = rrf_fusion kw sem k top_k ∧
    (rrf_fusion kw sem k top_k).Pairwise (fun a b =>
      b.rrf_score < a.rrf_score ∨
      (a.rrf_score = b.rrf_score ∧
        ((rrfMaps kw sem k).1.map Prod.fst).indexOf a.table_name <
          ((rrfMaps kw sem k).1.map Prod.fst).indexOf b.table_name)) := by
  refine ⟨rfl, ?_⟩
  rw [rrf_fusion_eq, List.pairwise_map]
  have hnd : ((rrfMaps kw sem k).1.map Prod.fst).Nodup := by
    unfold rrfMaps
    refine nodup_keys_rrfPass putKw k kw 0 _ ?_
    exact nodup_keys_rrfPass putSem k sem 0 ([], []) (by simp)
  have hpw := pairwise_indexOf (rrfMaps kw sem k).1 hnd
  have hsorted := sortDesc_pairwise
    (fun e => ((rrfMaps kw sem k).1.map Prod.fst).indexOf e.1)
    (rrfMaps kw sem k).1 hpw
  have htake := List.Pairwise.sublist (List.take_sublist top_k _) hsorted
  refine List.Pairwise.imp ?_ htake
  intro a b h
  exact h

/-! ## C1 / C2: executor runs -/

theorem runEngine_done (ragF genF : Nat → String) (exF : Nat → Except String (List Row)) :
    ∀ (n : Nat) (d : DState), d.node = NodeT.done → runEngine ragF genF exF n d = d := by
  intro n
  induction n with
  | zero => intro d _; rfl
  | succ m _ =>
      intro d hd
      simp only [runEngine, hd, if_true]

theorem runEngine_add (ragF genF : Nat → String) (exF : Nat → Except String (List Row))
    (a : Nat) : ∀ (b : Nat) (d : DState),
      runEngine ragF genF exF (a + b) d =
        runEngine ragF genF exF a (runEngine ragF genF exF b d) := by
  intro b
  induction b with
  | zero => intro d; rfl
  | succ m ih =>
      intro d
      rw [show a + (m + 1) = (a + m) + 1 from by omega]
      by_cases hd : d.node = NodeT.done
      · rw [runEngine_done ragF genF exF (a + m + 1) d hd,
          runEngine_done ragF genF exF (m + 1) d hd,
          runEngine_done ragF genF exF a d hd]
      · simp only [runEngine, hd, if_false]
        exact ih (engineStep ragF genF exF d)

theorem runEngine_of_exact (ragF genF : Nat → String) (exF : Nat → Except String (List Row))
    (k n : Nat) (d f : DState) (hk : runEngine ragF genF exF k d = f)
    (hf : f.node = NodeT.done) (hge : k ≤ n) : runEngine ragF genF exF n d = f := by
  rw [show n = (n - k) + k from by omega, runEngine_add, hk,
    runEngine_done ragF genF exF (n - k) f hf]

/-- C1: whenever the engine sits at the execute node of a non-terminal
step of a plan with at least two steps and execution succeeds with an
empty result set, it stops hard: within two transitions it reaches the
terminal node through the error handler with status `no_result`
preserved, an error message naming the step's purpose, cleared final
results — and the generation / retrieval / execution collaborators are
never invoked again (so no later step is generated or executed). -/
theorem empty_intermediate_halts (ragF genF : Nat → String)
    (exF : Nat → Except String (List Row)) (d : DState)
    (hnode : d.node = NodeT.execute)
    (htot : d.st.total_steps = d.st.steps.length)
    (hnonterm : d.st.current_step + 1 < d.st.total_steps)
    (hexec : exF d.execCalls = Except.ok [])
    (fuel : Nat) (hfuel : 2 ≤ fuel) :
    (runEngine ragF genF exF fuel d).node = NodeT.done ∧
    (runEngine ragF genF exF fuel d).st.status = EStatus.no_result ∧
    (runEngine ragF genF exF fuel d).st.error =
      some ("中间步骤无结果：" ++ (d.st.steps.getD d.st.current_step noStep).purpose ++
        "。请检查查询条件是否正确。") ∧
    (runEngine ragF genF exF fuel d).st.final_results = [] ∧
    (runEngine ragF genF exF fuel d).genCalls = d.genCalls ∧
    (runEngine ragF genF exF fuel d).ragCalls = d.ragCalls ∧
    (runEngine ragF genF exF fuel d).execCalls = d.execCalls + 1 := by
  have hne1 : ¬ d.st.total_steps ≤ d.st.current_step + 1 := by omega
  have hrun2 : runEngine ragF genF exF 2 d =
      engineStep ragF genF exF (engineStep ragF genF exF d) := by
    have hd : ¬ d.node = NodeT.done := by rw [hnode]; intro hh; exact absurd hh (by decide)
    have h1 : (engineStep ragF genF exF d).node = NodeT.error_handler := by
      simp only [engineStep, hnode, hexec, execute_node, hne1, if_false,
        List.isEmpty_nil, if_true]
    have hd1 : ¬ (engineStep ragF genF exF d).node = NodeT.done := by
      rw [h1]; intro hh; exact absurd hh (by decide)
    simp only [runEngine, hd, if_false, hd1]
  have hkey : (engineStep ragF genF exF (engineStep ragF genF exF d)).node = NodeT.done ∧
      (engineStep ragF genF exF (engineStep ragF genF exF d)).st.status =
        EStatus.no_result ∧
      (engineStep ragF genF exF (engineStep ragF genF exF d)).st.error =
        some ("中间步骤无结果：" ++ (d.st.steps.getD d.st.current_step noStep).purpose ++
          "。请检查查询条件是否正确。") ∧
      (engineStep ragF genF exF (engineStep ragF genF exF d)).st.final_results = [] ∧
      (engineStep ragF genF exF (engineStep ragF genF exF d)).genCalls = d.genCalls ∧
      (engineStep ragF genF exF (engineStep ragF genF exF d)).ragCalls = d.ragCalls ∧
      (engineStep ragF genF exF (engineStep ragF genF exF d)).execCalls = d.execCalls + 1 := by
    simp only [engineStep, hnode, hexec, execute_node, hne1, if_false,
      List.isEmpty_nil, if_true, error_node]
    simp
  have hfin := runEngine_of_exact ragF genF exF 2 fuel d _ hrun2 hkey.1 hfuel
  rw [hfin]
  exact hkey

theorem retry_loop (ragF genF : Nat → String) (exF : Nat → Except String (List Row))
    (herr : ∀ n, ∃ m, exF n = Except.error m ∧ isRetryable m = true) :
    ∀ (j : Nat) (d : DState),
      d.node = NodeT.sql_gen →
      d.st.status ≠ EStatus.no_result →
      d.st.max_retries - d.st.retry_count = j →
      d.st.retry_count ≤ d.st.max_retries →
      (runEngine ragF genF exF (2 * j + 3) d).node = NodeT.done ∧
      (runEngine ragF genF exF (2 * j + 3) d).st.status = EStatus.error ∧
      (runEngine ragF genF exF (2 * j + 3) d).execCalls = d.execCalls + j + 1 ∧
      (runEngine ragF genF exF (2 * j + 3) d).genCalls = d.genCalls + j + 1 ∧
      (runEngine ragF genF exF (2 * j + 3) d).ragCalls = d.ragCalls ∧
      ∃ m, exF (d.execCalls + j) = Except.error m ∧
        (runEngine ragF genF exF (2 * j + 3) d).st.error =
          some ("查询执行失败: " ++ ("已重试 " ++ toString d.st.max_retries ++
            " 次仍失败: " ++ m)) := by
  intro j
  induction j with
  | zero =>
      intro d hnode hst hj hle
      obtain ⟨m, hm, hret⟩ := herr d.execCalls
      have hd1 : engineStep ragF genF exF d =
          { d with
            st := { d.st with current_query := genF d.genCalls }
            node := NodeT.execute
            genCalls := d.genCalls + 1 } := by
        simp only [engineStep, hnode, sql_gen_node]
      have hcond : ¬ (isRetryable m = true ∧ d.st.retry_count < d.st.max_retries) := by
        rintro ⟨_, hlt⟩
        omega
      have hmle : d.st.max_retries ≤ d.st.retry_count := by omega
      have hd2 : engineStep ragF genF exF (engineStep ragF genF exF d) =
          { d with
            st := { d.st with
              current_query := genF d.genCalls
              error := some ("查询执行失败: " ++ ("已重试 " ++ toString d.st.max_retries ++
                " 次仍失败: " ++ m)) }
            node := NodeT.error_handler
            genCalls := d.genCalls + 1
            execCalls := d.execCalls + 1 } := by
        rw [hd1]
        simp only [engineStep, execute_node, hm]
        rw [if_neg hcond, if_pos hmle]
      have hd3 : engineStep ragF genF exF
          (engineStep ragF genF exF (engineStep ragF genF exF d)) =
          { d with
            st := { d.st with
              current_query := genF d.genCalls
              status := EStatus.error
              final_results := []
              error := some ("查询执行失败: " ++ ("已重试 " ++ toString d.st.max_retries ++
                " 次仍失败: " ++ m)) }
            node := NodeT.done
            genCalls := d.genCalls + 1
            execCalls := d.execCalls + 1 } := by
        rw [hd2]
        simp only [engineStep, error_node]
        rw [if_neg hst]
        simp
      have hrun : runEngine ragF genF exF 3 d =
          engineStep ragF genF exF
            (engineStep ragF genF exF (engineStep ragF genF exF d)) := by
        have h0 : ¬ d.node = NodeT.done := by
          rw [hnode]; intro hh; exact absurd hh (by decide)
        have h1 : ¬ (engineStep ragF genF exF d).node = NodeT.done := by
          rw [hd1]; simp
        have h2 : ¬ (engineStep ragF genF exF
            (engineStep ragF genF exF d)).node = NodeT.done := by
          rw [hd2]; simp
        simp only [runEngine, h0, if_false, h1, h2]
      rw [show 2 * 0 + 3 = 3 from rfl, hrun, hd3]
      refine ⟨rfl, rfl, by simp, by simp, rfl, m, by simpa using hm, rfl⟩
  | succ j ih =>
      intro d hnode hst hj hle
      have hlt : d.st.retry_count < d.st.max_retries := by omega
      obtain ⟨m, hm, hret⟩ := herr d.execCalls
      have hd1 : engineStep ragF genF exF d =
          { d with
            st := { d.st with current_query := genF d.genCalls }
            node := NodeT.execute
            genCalls := d.genCalls + 1 } := by
        simp only [engineStep, hnode, sql_gen_node]
      have hd2 : engineStep ragF genF exF (engineStep ragF genF exF d) =
          { d with
            st := { d.st with
              current_query := genF d.genCalls
              retry_count := d.st.retry_count + 1
              current_context :=
                "上次 SQL 执行失败，错误信息: " ++ m ++ "\n请修正 SQL 语法问题。" }
            node := NodeT.sql_gen
            genCalls := d.genCalls + 1
            execCalls := d.execCalls + 1 } := by
        rw [hd1]
        simp only [engineStep, execute_node, hm]
        rw [if_pos ⟨hret, hlt⟩]
      have hrun2 : runEngine ragF genF exF 2 d =
          engineStep ragF genF exF (engineStep ragF genF exF d) := by
        have h0 : ¬ d.node = NodeT.done := by
          rw [hnode]; intro hh; exact absurd hh (by decide)
        have h1 : ¬ (engineStep ragF genF exF d).node = NodeT.done := by
          rw [hd1]; simp
        simp only [runEngine, h0, if_false, h1]
      rw [show 2 * (j + 1) + 3 = (2 * j + 3) + 2 from by omega, runEngine_add,
        hrun2, hd2]
      have hres := ih
        { d with
          st := { d.st with
            current_query := genF d.genCalls
            retry_count := d.st.retry_count + 1
            current_context :=
              "上次 SQL 执行失败，错误信息: " ++ m ++ "\n请修正 SQL 语法问题。" }
          node := NodeT.sql_gen
          genCalls := d.genCalls + 1
          execCalls := d.execCalls + 1 }
        rfl hst
        (show d.st.max_retries - (d.st.retry_count + 1) = j from by omega)
        (show d.st.retry_count + 1 ≤ d.st.max_retries from by omega)
      obtain ⟨hc1, hc2, hc3, hc4, hc5, m2, hm2, he2⟩ := hres
      refine ⟨hc1, hc2, ?_, ?_, hc5, m2, ?_, he2⟩
      · rw [hc3]
        show d.execCalls + 1 + j + 1 = d.execCalls + (j + 1) + 1
        omega
      · rw [hc4]
        show d.genCalls + 1 + j + 1 = d.genCalls + (j + 1) + 1
        omega
      · rw [show d.execCalls + (j + 1) = d.execCalls + 1 + j from by omega]
        exact hm2

/-- C2: with an execution collaborator that always raises a retryable
error, the engine starting a fresh generation (retry count 0) issues
exactly `max_retries + 1` execution attempts — each failure below the
bound increments `retry_count` and returns to generation with the error
text fed into the context (second conjunct) — and then terminates
through the error handler with status `error` and the retry count in the
message. -/
theorem retry_bound (ragF genF : Nat → String) (exF : Nat → Except String (List Row))
    (d : DState)
    (hnode : d.node = NodeT.sql_gen)
    (hr : d.st.retry_count = 0)
    (hst : d.st.status ≠ EStatus.no_result)
    (herr : ∀ n, ∃ m, exF n = Except.error m ∧ isRetryable m = true)
    (fuel : Nat) (hfuel : 2 * d.st.max_retries + 3 ≤ fuel) :
    ((runEngine ragF genF exF fuel d).node = NodeT.done ∧
      (runEngine ragF genF exF fuel d).st.status = EStatus.error ∧
      (runEngine ragF genF exF fuel d).execCalls =
        d.execCalls + d.st.max_retries + 1 ∧
      (runEngine ragF genF exF fuel d).genCalls =
        d.genCalls + d.st.max_retries + 1 ∧
      (runEngine ragF genF exF fuel d).ragCalls = d.ragCalls ∧
      ∃ m, exF (d.execCalls + d.st.max_retries) = Except.error m ∧
        (runEngine ragF genF exF fuel d).st.error =
          some ("查询执行失败: " ++ ("已重试 " ++ toString d.st.max_retries ++
            " 次仍失败: " ++ m))) ∧
    (∀ (st : EState) (m : String), isRetryable m = true →
      st.retry_count < st.max_retries →
      execute_node (Except.error m) st =
        ({ st with
            retry_count := st.retry_count + 1
            current_context :=
              "上次 SQL 执行失败，错误信息: " ++ m ++ "\n请修正 SQL 语法问题。" },
          NodeT.sql_gen)) := by
  constructor
  · have hloop := retry_loop ragF genF exF herr d.st.max_retries d hnode hst
      (by omega) (by omega)
    obtain ⟨hc1, hc2, hc3, hc4, hc5, m, hm, he⟩ := hloop
    have hext := runEngine_of_exact ragF genF exF (2 * d.st.max_retries + 3) fuel d
      _ rfl hc1 hfuel
    rw [hext]
    exact ⟨hc1, hc2, hc3, hc4, hc5, m, hm, he⟩
  · intro st m hret hlt
    simp only [execute_node]
    rw [if_pos ⟨hret, hlt⟩]

/-- C1 witness: executing step 0 of the two-step plan with an empty
result reaches the terminal node with status `no_result` and no further
generation call. -/
theorem empty_intermediate_halts_holds :
    (runEngine (fun _ => "") (fun _ => "") (fun _ => Except.ok []) 2 cexDExec).node =
      NodeT.done ∧
    (runEngine (fun _ => "") (fun _ => "") (fun _ => Except.ok []) 2 cexDExec).st.status =
      EStatus.no_result ∧
    (runEngine (fun _ => "") (fun _ => "") (fun _ => Except.ok []) 2 cexDExec).genCalls =
      cexDExec.genCalls := by
  have h := empty_intermediate_halts (fun _ => "") (fun _ => "")
    (fun _ => Except.ok []) cexDExec rfl rfl (by decide) rfl 2 (by decide)
  exact ⟨h.1, h.2.1, h.2.2.2.2.1⟩

/-- C2 witness: with a collaborator that always raises a syntax error
and `max_retries = 2`, the run makes exactly 3 execution attempts and
ends in status `error`. -/
theorem retry_bound_holds :
    (runEngine (fun _ => "") (fun _ => "SELECT 1")
      (fun _ => Except.error ("syntax error")) 7 cexDGen).node = NodeT.done ∧
    (runEngine (fun _ => "") (fun _ => "SELECT 1")
      (fun _ => Except.error ("syntax error")) 7 cexDGen).st.status = EStatus.error ∧
    (runEngine (fun _ => "") (fun _ => "SELECT 1")
      (fun _ => Except.error ("syntax error")) 7 cexDGen).execCalls =
      cexDGen.execCalls + cexDGen.st.max_retries + 1 := by
  have h := retry_bound (fun _ => "") (fun _ => "SELECT 1")
    (fun _ => Except.error ("syntax error")) cexDGen rfl rfl (by decide)
    (fun n => ⟨"syntax error", rfl, by decide⟩) 7 (by decide)
  exact ⟨h.1.1, h.1.2.1, h.1.2.2.1⟩

/-- C10: the error-handler node always clears `final_results`, leaves the
accumulated `step_results` untouched, keeps an already-set `no_result`
status (otherwise reports `error`), and terminates the turn. -/
theorem error_node_clears_results (st : EState) :
    (error_node st).1.final_results = [] ∧
    (error_node st).1.step_results = st.step_results ∧
    (error_node st).1.status =
      (if st.status = EStatus.no_result then EStatus.no_result else EStatus.error) ∧
    (error_node st).2 = NodeT.done := by
  refine ⟨rfl, rfl, rfl, rfl⟩

/-! ## C9: query-text sanitization -/

theorem fenceFree_nil : fenceFree [] := by
  intro a b h
  have h2 := congrArg List.length h
  simp only [List.length_nil, List.length_append, List.length_cons] at h2
  omega

theorem fenceFree_cons (c : Char) (t : List Char)
    (h1 : ¬ (c = bt ∧ ∃ b, t = bt :: bt :: b))
    (h2 : fenceFree t) : fenceFree (c :: t) := by
  intro a b heq
  cases a with
  | nil =>
      simp only [List.nil_append] at heq
      injection heq with hc ht
      exact h1 ⟨hc, b, ht⟩
  | cons a0 a' =>
      simp only [List.cons_append] at heq
      injection heq with hc ht
      exact h2 a' b ht

theorem fenceFree_tail_of (c : Char) (t : List Char) (h : fenceFree (c :: t)) :
    fenceFree t := by
  intro a b heq
  exact h (c :: a) b (by rw [heq]; rfl)

theorem headSafe_fence1 (l : List Char) (h : headSafe l) : headSafe (fence1 l) := by
  cases l with
  | nil =>
      intro t ht
      simp [fence1] at ht
  | cons c t =>
      have hc : c ≠ bt := by
        intro hh
        exact h t (by rw [hh])
      have hcond : ¬ (c = bt ∧ [bt, bt] <+: t) := by
        rintro ⟨hh, _⟩
        exact hc hh
      intro s hs
      rw [show fence1 (c :: t) = c :: fence1 t from by
        simp only [fence1, if_neg hcond]] at hs
      injection hs with h1 _
      exact hc h1

theorem fence1_fenceFree : ∀ l : List Char, fenceFree (fence1 l) := by
  have H : ∀ n : Nat, ∀ l : List Char, l.length = n → fenceFree (fence1 l) := by
    intro n
    induction n using Nat.strong_induction_on with
    | _ n ih =>
      intro l hlen
      cases l with
      | nil =>
          rw [show fence1 [] = [] from by simp [fence1]]
          exact fenceFree_nil
      | cons c t =>
          by_cases hcond : c = bt ∧ [bt, bt] <+: t
          · rw [show fence1 (c :: t) = fence1 (fenceTail (t.drop 2)) from by
              simp only [fence1, if_pos hcond]]
            have hlt : (fenceTail (t.drop 2)).length < n := by
              have ha := fenceTail_length_le (t.drop 2)
              have hb := List.length_drop 2 t
              simp only [List.length_cons] at hlen
              omega
            exact ih _ hlt _ rfl
          · rw [show fence1 (c :: t) = c :: fence1 t from by
              simp only [fence1, if_neg hcond]]
            have htl : t.length < n := by
              simp only [List.length_cons] at hlen
              omega
            refine fenceFree_cons c (fence1 t) ?_ (ih _ htl _ rfl)
            rintro ⟨hc, b, hb⟩
            subst hc
            have hnp : ¬ [bt, bt] <+: t := fun hp => hcond ⟨rfl, hp⟩
            cases t with
            | nil =>
                rw [show fence1 [] = [] from by simp [fence1]] at hb
                exact absurd hb (by simp)
            | cons d t2 =>
                by_cases hd : d = bt
                · subst hd
                  have hhs : headSafe t2 := by
                    intro s hs
                    exact hnp (by rw [hs]; exact ⟨s, rfl⟩)
                  have hp2 : ¬ [bt, bt] <+: t2 := by
                    intro hp
                    obtain ⟨s2, hs2⟩ := hp
                    exact hhs (bt :: s2) (by rw [← hs2]; rfl)
                  rw [show fence1 (bt :: t2) = bt :: fence1 t2 from by
                    simp only [fence1, hp2, and_false, true_and, if_false]] at hb
                  injection hb with _ hb2
                  exact headSafe_fence1 t2 hhs b hb2
                · have hcond2 : ¬ (d = bt ∧ [bt, bt] <+: t2) := by
                    rintro ⟨hh, _⟩
                    exact hd hh
                  rw [show fence1 (d :: t2) = d :: fence1 t2 from by
                    simp only [fence1, if_neg hcond2]] at hb
                  injection hb with h1 _
                  exact hd h1
  intro l
  exact H l.length l rfl

theorem fence2_of_fenceFree : ∀ l : List Char, fenceFree l → fence2 l = l := by
  intro l
  induction l with
  | nil => intro _; simp [fence2]
  | cons c t ih =>
      intro h
      have h1 : ¬ (c = '\n' ∧ [bt, bt, bt] <+: t) := by
        rintro ⟨_, hpre⟩
        obtain ⟨s, hs⟩ := hpre
        exact h [c] s (by rw [← hs]; rfl)
      have h2 : ¬ (c = bt ∧ [bt, bt] <+: t) := by
        rintro ⟨hc, hpre⟩
        obtain ⟨s, hs⟩ := hpre
        subst hc
        exact h [] s (by rw [← hs]; rfl)
      rw [show fence2 (c :: t) = c :: fence2 t from by
        simp only [fence2, if_neg h1, if_neg h2]]
      rw [ih (fenceFree_tail_of c t h)]

theorem fenceFree_of_infix (l x a b : List Char) (h : fenceFree l)
    (heq : l = a ++ x ++ b) : fenceFree x := by
  intro p q hx
  refine h (a ++ p) (q ++ b) ?_
  rw [heq, hx]
  simp [List.append_assoc]

theorem trimChars_decomp (l : List Char) :
    l = l.takeWhile pySpace ++ trimChars l ++
      ((l.dropWhile pySpace).reverse.takeWhile pySpace).reverse := by
  have h2 : l.dropWhile pySpace =
      trimChars l ++ ((l.dropWhile pySpace).reverse.takeWhile pySpace).reverse := by
    conv_lhs => rw [← List.reverse_reverse (l.dropWhile pySpace),
      ← List.takeWhile_append_dropWhile (p := pySpace)
        (l := (l.dropWhile pySpace).reverse),
      List.reverse_append]
    rfl
  conv_lhs => rw [← List.takeWhile_append_dropWhile (p := pySpace) (l := l), h2]
  simp [List.append_assoc]

theorem splitSemi_ne_nil : ∀ l : List Char, splitSemi l ≠ [] := by
  intro l
  induction l with
  | nil => simp [splitSemi]
  | cons c t ih =>
      by_cases hc : c = ';'
      · simp [splitSemi, hc]
      · simp only [splitSemi, if_neg hc]
        rcases hq : splitSemi t with _ | ⟨q0, qs⟩
        · exact absurd hq ih
        · simp [consHead]

theorem splitSemi_head_pfx :
    ∀ (l p : List Char) (ps : List (List Char)),
      splitSemi l = p :: ps → ∃ b, l = p ++ b := by
  intro l
  induction l with
  | nil =>
      intro p ps h
      simp only [splitSemi] at h
      injection h with h1 _
      exact ⟨[], by rw [← h1]; rfl⟩
  | cons c t ih =>
      intro p ps h
      by_cases hc : c = ';'
      · simp only [splitSemi, if_pos hc] at h
        injection h with h1 _
        exact ⟨c :: t, by rw [← h1]; rfl⟩
      · simp only [splitSemi, if_neg hc] at h
        rcases hq : splitSemi t with _ | ⟨q0, qs⟩
        · exact absurd hq (splitSemi_ne_nil t)
        · rw [hq] at h
          simp only [consHead] at h
          injection h with h1 _
          obtain ⟨b, hb⟩ := ih q0 qs hq
          exact ⟨b, by rw [← h1, hb]; rfl⟩

theorem splitSemi_infix :
    ∀ l p : List Char, p ∈ splitSemi l → ∃ a b, l = a ++ p ++ b := by
  intro l
  induction l with
  | nil =>
      intro p hp
      simp only [splitSemi, List.mem_singleton] at hp
      exact ⟨[], [], by simp [hp]⟩
  | cons c t ih =>
      intro p hp
      by_cases hc : c = ';'
      · simp only [splitSemi, if_pos hc] at hp
        rcases List.mem_cons.mp hp with h1 | h2
        · exact ⟨[], c :: t, by simp [h1]⟩
        · obtain ⟨a, b, hab⟩ := ih p h2
          exact ⟨c :: a, b, by rw [hab]; rfl⟩
      · simp only [splitSemi, if_neg hc] at hp
        rcases hq : splitSemi t with _ | ⟨q0, qs⟩
        · exact absurd hq (splitSemi_ne_nil t)
        · rw [hq] at hp
          simp only [consHead] at hp
          rcases List.mem_cons.mp hp with h1 | h2
          · obtain ⟨b, hb⟩ := splitSemi_head_pfx t q0 qs hq
            refine ⟨[], b, ?_⟩
            rw [h1, hb]
            rfl
          · obtain ⟨a, b, hab⟩ := ih p (by rw [hq]; exact List.mem_cons_of_mem q0 h2)
            exact ⟨c :: a, b, by rw [hab]; rfl⟩

theorem splitBlank_spec : ∀ (n : Nat) (l : List Char), l.length = n →
    (splitBlank l ≠ [] ∧
     (∀ (p : List Char) (ps : List (List Char)),
        splitBlank l = p :: ps → ∃ b, l = p ++ b) ∧
     (∀ p : List Char, p ∈ splitBlank l → ∃ a b, l = a ++ p ++ b)) := by
  intro n
  induction n using Nat.strong_induction_on with
  | _ n ih =>
    intro l hlen
    cases l with
    | nil =>
        refine ⟨by simp [splitBlank], ?_, ?_⟩
        · intro p ps h
          simp only [splitBlank] at h
          injection h with h1 _
          exact ⟨[], by rw [← h1]; rfl⟩
        · intro p hp
          simp only [splitBlank, List.mem_singleton] at hp
          exact ⟨[], [], by simp [hp]⟩
    | cons c t =>
        by_cases hcond : c = '\n' ∧ ['\n'] <+: t
        · have heq : splitBlank (c :: t) = [] :: splitBlank (t.drop 1) := by
            simp only [splitBlank, if_pos hcond]
          have hdl : (t.drop 1).length < n := by
            have := List.length_drop 1 t
            simp only [List.length_cons] at hlen
            omega
          obtain ⟨hne', hpfx', hifx'⟩ := ih _ hdl (t.drop 1) rfl
          obtain ⟨hc1, hpre⟩ := hcond
          obtain ⟨s, hs⟩ := hpre
          have ht : t = '\n' :: s := hs.symm
          have hts : t.drop 1 = s := by rw [ht]; rfl
          refine ⟨by rw [heq]; simp, ?_, ?_⟩
          · intro p ps h
            rw [heq] at h
            injection h with h1 _
            exact ⟨c :: t, by rw [← h1]; rfl⟩
          · intro p hp
            rw [heq] at hp
            rcases List.mem_cons.mp hp with h1 | h2
            · exact ⟨[], c :: t, by simp [h1]⟩
            · obtain ⟨a, b, hab⟩ := hifx' p h2
              rw [hts] at hab
              refine ⟨c :: '\n' :: a, b, ?_⟩
              rw [ht, hab]
              rfl
        · have htl : t.length < n := by
            simp only [List.length_cons] at hlen
            omega
          obtain ⟨hne', hpfx', hifx'⟩ := ih _ htl t rfl
          rcases hq : splitBlank t with _ | ⟨q0, qs⟩
          · exact absurd hq hne'
          · have heq : splitBlank (c :: t) = (c :: q0) :: qs := by
              simp only [splitBlank, if_neg hcond, hq, consHead]
            refine ⟨by rw [heq]; simp, ?_, ?_⟩
            · intro p ps h
              rw [heq] at h
              injection h with h1 _
              obtain ⟨b, hb⟩ := hpfx' q0 qs hq
              exact ⟨b, by rw [← h1, hb]; rfl⟩
            · intro p hp
              rw [heq] at hp
              rcases List.mem_cons.mp hp with h1 | h2
              · obtain ⟨b, hb⟩ := hpfx' q0 qs hq
                refine ⟨[], b, ?_⟩
                rw [h1, hb]
                rfl
              · obtain ⟨a, b, hab⟩ := hifx' p (by rw [hq]; exact List.mem_cons_of_mem q0 h2)
                exact ⟨c :: a, b, by rw [hab]; rfl⟩

theorem pickSemi_infix (l : List Char) : ∃ a b, l = a ++ pickSemi l ++ b := by
  unfold pickSemi
  split
  · rcases hf : (splitSemi l).find? plausibleSelect with _ | p
    · exact ⟨[], [], by simp⟩
    · have hp : p ∈ splitSemi l := List.mem_of_find?_eq_some hf
      obtain ⟨a, b, hab⟩ := splitSemi_infix l p hp
      have hd := trimChars_decomp p
      refine ⟨a ++ p.takeWhile pySpace,
        ((p.dropWhile pySpace).reverse.takeWhile pySpace).reverse ++ b, ?_⟩
      conv_lhs => rw [hab]
      conv_lhs => rw [hd]
      simp [List.append_assoc]
  · exact ⟨[], [], by simp⟩

theorem pickBlank_infix (l : List Char) : ∃ a b, l = a ++ pickBlank l ++ b := by
  unfold pickBlank
  split
  · rcases hf : (splitBlank l).find? (fun q => !(trimChars q).isEmpty) with _ | p
    · exact ⟨[], [], by simp⟩
    · have hp : p ∈ splitBlank l := List.mem_of_find?_eq_some hf
      obtain ⟨_, _, hifx⟩ := splitBlank_spec l.length l rfl
      obtain ⟨a, b, hab⟩ := hifx p hp
      have hd := trimChars_decomp p
      refine ⟨a ++ p.takeWhile pySpace,
        ((p.dropWhile pySpace).reverse.takeWhile pySpace).reverse ++ b, ?_⟩
      conv_lhs => rw [hab]
      conv_lhs => rw [hd]
      simp [List.append_assoc]
  · exact ⟨[], [], by simp⟩

theorem sanitizeSQL_fenceFree (raw : List Char) : fenceFree (sanitizeSQL raw) := by
  have h1 : fenceFree (fence1 (trimChars raw)) := fence1_fenceFree _
  have h2 : fence2 (fence1 (trimChars raw)) = fence1 (trimChars raw) :=
    fence2_of_fenceFree _ h1
  have hs : sanitizeSQL raw =
      trimChars (pickBlank (pickSemi (fence1 (trimChars raw)))) := by
    unfold sanitizeSQL
    rw [h2]
  rw [hs]
  obtain ⟨a1, b1, hp1⟩ := pickSemi_infix (fence1 (trimChars raw))
  have h3 : fenceFree (pickSemi (fence1 (trimChars raw))) :=
    fenceFree_of_infix _ _ a1 b1 h1 hp1
  obtain ⟨a2, b2, hp2⟩ := pickBlank_infix (pickSemi (fence1 (trimChars raw)))
  have h4 : fenceFree (pickBlank (pickSemi (fence1 (trimChars raw)))) :=
    fenceFree_of_infix _ _ a2 b2 h3 hp2
  have hd := trimChars_decomp (pickBlank (pickSemi (fence1 (trimChars raw))))
  exact fenceFree_of_infix _ _ _ _ h4 hd

/-- C9 counterexample: raw text made of two statements separated by a
statement terminator, neither beginning with SELECT, is returned
unchanged by the sanitizer — both statements (and the `;`) survive, so
the result is not a single statement. -/
theorem sanitizeSQL_keeps_nonselect_statements :
    sanitizeSQL (("UPDATE a SET x=1; DELETE FROM b").data) =
      ("UPDATE a SET x=1; DELETE FROM b").data ∧
    ';' ∈ sanitizeSQL (("UPDATE a SET x=1; DELETE FROM b").data) := by
  constructor
  · simp [sanitizeSQL, pickSemi, pickBlank, fence1, fence2, splitSemi, splitBlank,
      trimChars, consHead, fenceTail, dropTag, pySpace, bt, plausibleSelect,
      containsSub]
  · simp [sanitizeSQL, pickSemi, pickBlank, fence1, fence2, splitSemi, splitBlank,
      trimChars, consHead, fenceTail, dropTag, pySpace, bt, plausibleSelect,
      containsSub]

/-- C9 amended: the sanitized query never contains a markdown code-fence
marker (three consecutive backticks); statement selection keeps, among
`;`-delimited parts, the first part whose stripped text begins with
SELECT (case-insensitively) — when no part does, the text is kept
unchanged with all its statements — and among blank-line-delimited
parts, the first one with non-empty stripped text. -/
theorem sanitizeSQL_spec :
    (∀ raw a b : List Char, sanitizeSQL raw ≠ a ++ bt :: bt :: bt :: b) ∧
    (∀ l p : List Char, ';' ∈ l →
      (splitSemi l).find? plausibleSelect = some p →
      pickSemi l = trimChars p) ∧
    (∀ l : List Char, ';' ∈ l →
      (splitSemi l).find? plausibleSelect = none →
      pickSemi l = l) ∧
    (∀ l p : List Char, containsSub ['\n', '\n'] l = true →
      (splitBlank l).find? (fun q => !(trimChars q).isEmpty) = some p →
      pickBlank l = trimChars p) := by
  refine ⟨?_, ?_, ?_, ?_⟩
  · intro raw a b
    exact sanitizeSQL_fenceFree raw a b
  · intro l p hmem hfind
    unfold pickSemi
    rw [if_pos hmem, hfind]
  · intro l hmem hfind
    unfold pickSemi
    rw [if_pos hmem, hfind]
  · intro l p hsub hfind
    unfold pickBlank
    rw [if_pos hsub, hfind]

/-- C9 amended witness: concrete sanitizer selections — the first
SELECT statement among `;`-separated parts, unchanged text when no part
is a SELECT, and the first non-empty blank-line block. -/
theorem sanitizeSQL_spec_holds :
    pickSemi (("SELECT 1; DROP TABLE t").data) = ("SELECT 1").data ∧
    pickSemi (("UPDATE a SET x=1; DELETE FROM b").data) =
      ("UPDATE a SET x=1; DELETE FROM b").data ∧
    pickBlank (("\n\nSELECT 2").data) = ("SELECT 2").data := by
  refine ⟨?_, ?_, ?_⟩
  · have h := sanitizeSQL_spec.2.1 (("SELECT 1; DROP TABLE t").data)
      (("SELECT 1").data) (by decide) (by decide)
    rw [h]
    decide
  · exact sanitizeSQL_spec.2.2.1 (("UPDATE a SET x=1; DELETE FROM b").data)
      (by decide) (by decide)
  · have h := sanitizeSQL_spec.2.2.2 (("\n\nSELECT 2").data)
      (("SELECT 2").data) (by decide)
      (by simp [splitBlank, consHead, trimChars, pySpace])
    rw [h]
    decide

end T2S
